import Mathlib

/-!
Verification of the quantdsl dependency-graph core: the execution-order
scheduler, the dependency-graph generator, the dependency-value aggregator,
the fixing-date resolver, the price-process provider, and the application
singleton in `quantdsl/application/main.py`.

The domain-service implementations are not part of the visible sources
(only their tests are), so those operations are modelled from the
specification, faithful to its words, and checked against the behaviour
pinned down by the tests in `quantdsl/test_domain_services.py`.
`quantdsl/application/main.py` is embedded directly from its source.
-/

/-! ## Execution Order Scheduler (spec §4.2) -/

/-- Modelled from the spec: the body of `generate_execution_order`
(`quantdsl.domain.services.dependency_graphs`, implementation absent from
the visible sources).  Reverse-Kahn topological sort: a FIFO ready queue
is seeded with the leaf ids; the head is popped and yielded, and each
dependent of the popped id whose dependencies have all been seen and which
has never been enqueued is pushed onto the tail.  `enq` records every id
ever enqueued and `seen` the ids yielded so far; `fuel` bounds the number
of loop iterations (the Python loop runs until the queue empties). -/
def execOrderLoop (dependents deps : Nat → List Nat) :
    Nat → List Nat → List Nat → List Nat → List Nat
  | 0, _, _, _ => []
  | _ + 1, [], _, _ => []
  | fuel + 1, h :: t, enq, seen =>
    let seen2 := seen ++ [h]
    let ready := (dependents h).filter fun d =>
      decide (∀ x ∈ deps d, x ∈ seen2) && decide (d ∉ enq)
    h :: execOrderLoop dependents deps fuel (t ++ ready) (enq ++ ready) seen2

/-- Modelled from the spec: `generate_execution_order(leaf_call_ids,
call_dependents_repo, call_dependencies_repo)`.  The repositories are
embedded as total lookup functions returning the stored adjacency lists
(empty outside the graph); the result is the list of yielded call ids. -/
def generate_execution_order (leaf_call_ids : List Nat)
    (call_dependents_repo call_dependencies_repo : Nat → List Nat)
    (fuel : Nat) : List Nat :=
  execOrderLoop call_dependents_repo call_dependencies_repo fuel
    leaf_call_ids leaf_call_ids []

/-- The diamond graph's dependencies relation from
`test_generate_execution_order`: 1 -> [2,3], 2 -> [], 3 -> [2]. -/
def diamondDeps : Nat → List Nat := fun v =>
  if v = 1 then [2, 3] else if v = 3 then [2] else []

/-- The diamond graph's dependents relation from
`test_generate_execution_order`: 1 -> [], 2 -> [1,3], 3 -> [1]. -/
def diamondDepts : Nat → List Nat := fun v =>
  if v = 2 then [1, 3] else if v = 3 then [1] else []

/-- C2: for the diamond graph with dependencies {1:[2,3], 2:[], 3:[2]} and
dependents {1:[], 2:[1,3], 3:[1]}, `generate_execution_order` from leaf
ids [2] yields exactly the sequence [2, 3, 1]. -/
theorem generate_execution_order_diamond :
    generate_execution_order [2] diamondDepts diamondDeps 4 = [2, 3, 1] := by
  decide

/-! ## Dependency Value Aggregator (spec §4.4) -/

/-- Modelled from the spec: the loop of `get_dependency_values` over the
dependency ids — for each dependency id fetch its CallResult and add the
pair (dependency id, result value) to the mapping; a missing result is a
fatal internal-consistency failure, embedded as `none`. -/
def collectResults (call_result_repo : Nat → Option Int) :
    List Nat → Option (List (Nat × Int))
  | [] => some []
  | d :: ds =>
    match call_result_repo d with
    | none => none
    | some v => (collectResults call_result_repo ds).map fun rest => (d, v) :: rest

/-- Modelled from the spec: `get_dependency_values(call_id,
call_dependencies_repo, call_result_repo)` — look up `call_id`'s
CallDependencies and build the mapping keyed by dependency id (embedded as
an association list in dependency order, modelling the Python dict). -/
def get_dependency_values (call_id : Nat)
    (call_dependencies_repo : Nat → Option (List Nat))
    (call_result_repo : Nat → Option Int) : Option (List (Nat × Int)) :=
  match call_dependencies_repo call_id with
  | none => none
  | some ds => collectResults call_result_repo ds

theorem collectResults_eq_map (call_result_repo : Nat → Option Int)
    (f : Nat → Int) :
    ∀ ds : List Nat, (∀ d ∈ ds, call_result_repo d = some (f d)) →
      collectResults call_result_repo ds = some (ds.map fun d => (d, f d)) := by
  intro ds
  induction ds with
  | nil => intro _; rfl
  | cons d ds ih =>
    intro h
    have hd : call_result_repo d = some (f d) := h d (List.mem_cons_self d ds)
    have hds := ih fun x hx => h x (List.mem_cons_of_mem d hx)
    simp [collectResults, hd, hds]

/-- C5: whenever `call_id`'s CallDependencies record lists d1..dn and each
di has a CallResult, `get_dependency_values` returns exactly the mapping
di -> result value of di, keyed by dependency id. -/
theorem get_dependency_values_spec (call_id : Nat)
    (call_dependencies_repo : Nat → Option (List Nat))
    (call_result_repo : Nat → Option Int) (ds : List Nat) (f : Nat → Int)
    (hdeps : call_dependencies_repo call_id = some ds)
    (hres : ∀ d ∈ ds, call_result_repo d = some (f d)) :
    get_dependency_values call_id call_dependencies_repo call_result_repo =
      some (ds.map fun d => (d, f d)) := by
  simp [get_dependency_values, hdeps, collectResults_eq_map call_result_repo f ds hres]

/-- The CallDependencies repository of `test_get_dependency_values`:
call 1 has dependencies [2, 3]. -/
def testDepsRepo : Nat → Option (List Nat) := fun x =>
  if x = 1 then some [2, 3] else none

/-- The CallResult repository of `test_get_dependency_values`:
CallResult(2) = 12, CallResult(3) = 13. -/
def testResultRepo : Nat → Option Int := fun x =>
  if x = 2 then some 12 else if x = 3 then some 13 else none

/-- Witness for C5 at the test's input: call 1 with dependencies [2, 3]
and results 12 and 13 yields the mapping {2: 12, 3: 13}. -/
theorem get_dependency_values_spec_witness :
    get_dependency_values 1 testDepsRepo testResultRepo = some [(2, 12), (3, 13)] := by
  have h := get_dependency_values_spec 1 testDepsRepo testResultRepo [2, 3]
    (fun d => if d = 2 then 12 else 13) (by decide) (by decide)
  simpa using h

/-! ## Price Process Provider: persisting simulated prices (spec §4.5) -/

/-- A calendar date, embedding `datetime.date`. -/
structure CalDate where
  year : Nat
  month : Nat
  day : Nat
deriving DecidableEq

/-- A persisted SimulatedPrice record: market name, fixing date and the
price path (one price per Monte Carlo path). -/
structure SimulatedPriceRec where
  market_name : String
  fixing_date : CalDate
  price_path : List Int
deriving DecidableEq

/-- Modelled from the spec: `register_simulated_price` — persist one
SimulatedPrice record in the append-only store. -/
def register_simulated_price (store : List SimulatedPriceRec)
    (t : String × CalDate × List Int) : List SimulatedPriceRec :=
  store ++ [⟨t.1, t.2.1, t.2.2⟩]

/-- Modelled from the spec: `generate_simulated_prices(market_calibration,
market_simulation)` drives `simulate_future_prices` and persists one
SimulatedPrice record per produced (market_name, fixing_date, price_path)
triple.  The produced sequence is passed in explicitly (in the test it is
patched to a fixed list); the result is the store after the run. -/
def generate_simulated_prices (produced : List (String × CalDate × List Int)) :
    List SimulatedPriceRec :=
  produced.foldl register_simulated_price []

theorem foldl_register_simulated_price (produced : List (String × CalDate × List Int)) :
    ∀ store : List SimulatedPriceRec,
      produced.foldl register_simulated_price store =
        store ++ produced.map fun t => ⟨t.1, t.2.1, t.2.2⟩ := by
  induction produced with
  | nil => intro store; simp
  | cons t ts ih =>
    intro store
    simp [List.foldl_cons, ih, register_simulated_price]

/-- C8: `generate_simulated_prices` persists exactly one SimulatedPrice
record per produced triple, in production order — the persisted store is
the pointwise image of the produced sequence (so its length equals the
number of produced triples, nothing is skipped and nothing is duplicated,
even when the produced sequence itself contains duplicate triples). -/
theorem generate_simulated_prices_one_to_one
    (produced : List (String × CalDate × List Int)) :
    generate_simulated_prices produced =
        (produced.map fun t => ⟨t.1, t.2.1, t.2.2⟩) ∧
      (generate_simulated_prices produced).length = produced.length := by
  have h := foldl_register_simulated_price produced []
  constructor
  · simpa [generate_simulated_prices] using h
  · simp [generate_simulated_prices, h]

/-! ## Price Process Provider: resolution (spec §4.5) -/

/-- The simulation capability of a price process:
`simulate_future_prices(market_names, fixing_dates, observation_date,
path_count, calibration_params)`, producing (market_name, fixing_date,
price_path) triples. -/
def SimCapability : Type :=
  List String → List CalDate → CalDate → Nat → List (String × Int) →
    List (String × CalDate × List Int)

/-- A resolved Python module, as far as resolution is concerned: it may or
may not expose the named price-process class with the simulation
capability. -/
structure PriceProcessModule where
  simulate_future_prices : Option SimCapability

/-- The process-resolution failure (a DslError in the source), with the two
sub-reasons: the named module/process was not found, or it was found but
does not expose the simulation capability. -/
inductive DslErrorReason where
  | processNotFound (name : String)
  | processMissingCapability (name : String)
deriving DecidableEq

/-- Modelled from the spec: `get_price_process(price_process_name)`
(`quantdsl.domain.services.price_processes`, implementation absent from the
visible sources).  The dynamic import machinery is embedded as a registry
lookup from the process name; a missing module and a present module missing
the capability are both reported as a process-resolution error with the
matching sub-reason, never as a raw lookup failure. -/
def get_price_process (registry : String → Option PriceProcessModule)
    (price_process_name : String) : Except DslErrorReason SimCapability :=
  match registry price_process_name with
  | none => Except.error (DslErrorReason.processNotFound price_process_name)
  | some m =>
    match m.simulate_future_prices with
    | none => Except.error (DslErrorReason.processMissingCapability price_process_name)
    | some cap => Except.ok cap

/-- C7: `get_price_process` fails only with the single process-resolution
error kind, with distinguishable sub-reasons for its two failure cases:
a name resolving to no module yields the not-found sub-reason, a module
lacking the simulation capability yields the missing-capability
sub-reason, every error it returns is one of those two, and the two
sub-reasons are distinct. -/
theorem get_price_process_resolution (registry : String → Option PriceProcessModule)
    (name : String) :
    (registry name = none →
      get_price_process registry name =
        Except.error (DslErrorReason.processNotFound name)) ∧
    (∀ m, registry name = some m → m.simulate_future_prices = none →
      get_price_process registry name =
        Except.error (DslErrorReason.processMissingCapability name)) ∧
    (∀ e, get_price_process registry name = Except.error e →
      e = DslErrorReason.processNotFound name ∨
        e = DslErrorReason.processMissingCapability name) ∧
    DslErrorReason.processNotFound name ≠ DslErrorReason.processMissingCapability name := by
  refine ⟨?_, ?_, ?_, by simp⟩
  · intro h
    simp [get_price_process, h]
  · intro m hm hcap
    simp [get_price_process, hm, hcap]
  · intro e he
    unfold get_price_process at he
    rcases hreg : registry name with _ | m
    · rw [hreg] at he
      dsimp only at he
      left
      exact (Except.error.inj he).symm
    · rw [hreg] at he
      dsimp only at he
      rcases hcap : m.simulate_future_prices with _ | cap <;> rw [hcap] at he <;>
        dsimp only at he
      · right
        exact (Except.error.inj he).symm
      · exact absurd he (by simp)

/-- The registry of `test_get_price_process`: the default price process
name resolves to a module exposing the capability; the name with a
leading 'x' resolves to no module; the name with a trailing 'x' resolves
to the module but the class is absent. -/
def testProcessRegistry : String → Option PriceProcessModule := fun n =>
  if n = "quantdsl.priceprocess.blackscholes.BlackScholesPriceProcess" then
    some ⟨some fun _ _ _ _ _ => []⟩
  else if n = "quantdsl.priceprocess.blackscholes.BlackScholesPriceProcessx" then
    some ⟨none⟩
  else none

/-- Witness for C7 at the test's two failing names: the unknown-module name
yields the not-found sub-reason and the unknown-class name yields the
missing-capability sub-reason. -/
theorem get_price_process_resolution_witness :
    get_price_process testProcessRegistry
        "xquantdsl.priceprocess.blackscholes.BlackScholesPriceProcess" =
      Except.error (DslErrorReason.processNotFound
        "xquantdsl.priceprocess.blackscholes.BlackScholesPriceProcess") ∧
    get_price_process testProcessRegistry
        "quantdsl.priceprocess.blackscholes.BlackScholesPriceProcessx" =
      Except.error (DslErrorReason.processMissingCapability
        "quantdsl.priceprocess.blackscholes.BlackScholesPriceProcessx") := by
  constructor
  · exact (get_price_process_resolution testProcessRegistry _).1 rfl
  · exact (get_price_process_resolution testProcessRegistry _).2.1 ⟨none⟩ rfl rfl

/-! ## Fixing-Date Resolver (spec §4.3) -/

/-- One step chain walk used by `regenerate_execution_order`: from
`current`, follow `call_link_repo[current].call_id` to the next call id,
yielding ids until the chain closes back at the root (which is yielded
last); `fuel` bounds the walk. -/
def chainWalk (call_link_repo : Nat → Option Nat) (rootId : Nat) :
    Nat → Nat → List Nat
  | 0, _ => []
  | fuel + 1, current =>
    match call_link_repo current with
    | none => []
    | some nxt =>
      if nxt = rootId then [nxt] else nxt :: chainWalk call_link_repo rootId fuel nxt

/-- Modelled from the spec: `regenerate_execution_order(dependency_graph_id,
call_link_repo)` (`quantdsl.domain.services.fixing_dates`, implementation
absent from the visible sources) walks the Call Link Chain starting from
the root id, per `test_regenerate_execution_order` (links 1->2, 2->3,
3->1 from root 1 give [2, 3, 1]). -/
def regenerate_execution_order (dependency_graph_id : Nat)
    (call_link_repo : Nat → Option Nat) (fuel : Nat) : List Nat :=
  chainWalk call_link_repo dependency_graph_id fuel dependency_graph_id

/-- A stored call source, as far as the fixing-date resolver inspects it:
it either embeds a Fixing marker carrying a calendar date, or it does not. -/
inductive DslSource where
  | fixing (date : CalDate)
  | plain
deriving DecidableEq

/-- A stored CallRequirement: the call's DSL source. -/
structure CallRequirementRec where
  dsl_source : DslSource
deriving DecidableEq

/-- Extract the date of the embedded Fixing marker of a source, if present. -/
def findFixingDate : DslSource → Option CalDate
  | DslSource.fixing d => some d
  | DslSource.plain => none

/-- A date key that orders calendar dates chronologically. -/
def dateKey (d : CalDate) : Nat :=
  d.year * 10000 + d.month * 100 + d.day

instance : IsTotal CalDate (fun a b => dateKey a ≤ dateKey b) :=
  ⟨fun a b => Nat.le_total (dateKey a) (dateKey b)⟩

instance : IsTrans CalDate (fun a b => dateKey a ≤ dateKey b) :=
  ⟨fun _ _ _ h1 h2 => Nat.le_trans h1 h2⟩

/-- The dates of the visited calls' Fixing markers, in link-chain
visitation order.  This is the resolver exactly as the spec's words
describe its result order; it is stated for comparison with
`list_fixing_dates`. -/
def list_fixing_dates_link_order (dependency_graph_id : Nat)
    (call_requirement_repo : Nat → Option CallRequirementRec)
    (call_link_repo : Nat → Option Nat) (fuel : Nat) : List CalDate :=
  (regenerate_execution_order dependency_graph_id call_link_repo fuel).filterMap
    fun c => (call_requirement_repo c).bind fun req => findFixingDate req.dsl_source

/-- Modelled from the spec: `list_fixing_dates(dependency_graph_id,
call_requirement_repo, call_link_repo)` — walk the Call Link Chain from
the root, collect the dates of the Fixing markers found in the visited
calls' sources, and return them sorted in ascending date order.  The final
sort is forced by the in-src test `test_list_fixing_dates`: the chain
visits calls 2, 3, 1 but the expected result lists the dates of calls
1, 2, 3 ascending, which contradicts the spec's visitation-order wording. -/
def list_fixing_dates (dependency_graph_id : Nat)
    (call_requirement_repo : Nat → Option CallRequirementRec)
    (call_link_repo : Nat → Option Nat) (fuel : Nat) : List CalDate :=
  List.insertionSort (fun a b => dateKey a ≤ dateKey b)
    (list_fixing_dates_link_order dependency_graph_id call_requirement_repo
      call_link_repo fuel)

/-- The CallLink repository of `test_list_fixing_dates` (and of
`test_regenerate_execution_order`): links 1 -> 2, 2 -> 3, 3 -> 1. -/
def testCallLinkRepo : Nat → Option Nat := fun x =>
  if x = 1 then some 2 else if x = 2 then some 3 else if x = 3 then some 1 else none

/-- The CallRequirement repository of `test_list_fixing_dates`: call 1
holds Fixing('2011-01-01', 1), call 2 holds Fixing('2012-02-02', 1), call
3 holds Fixing('2013-03-03', 1). -/
def testCallRequirementRepo : Nat → Option CallRequirementRec := fun x =>
  if x = 1 then some ⟨DslSource.fixing ⟨2011, 1, 1⟩⟩
  else if x = 2 then some ⟨DslSource.fixing ⟨2012, 2, 2⟩⟩
  else if x = 3 then some ⟨DslSource.fixing ⟨2013, 3, 3⟩⟩
  else none

/-- C6 counterexample: on the fixture of `test_list_fixing_dates` the
chain from root 1 visits calls 2, 3, 1, so the link-chain visitation
order of the dates is [2012-02-02, 2013-03-03, 2011-01-01]; the result
pinned by the test is [2011-01-01, 2012-02-02, 2013-03-03], which differs
— the resolver does not return the dates in visitation order. -/
theorem list_fixing_dates_order_counterexample :
    regenerate_execution_order 1 testCallLinkRepo 3 = [2, 3, 1] ∧
    list_fixing_dates_link_order 1 testCallRequirementRepo testCallLinkRepo 3 =
      [⟨2012, 2, 2⟩, ⟨2013, 3, 3⟩, ⟨2011, 1, 1⟩] ∧
    list_fixing_dates 1 testCallRequirementRepo testCallLinkRepo 3 =
      [⟨2011, 1, 1⟩, ⟨2012, 2, 2⟩, ⟨2013, 3, 3⟩] ∧
    list_fixing_dates 1 testCallRequirementRepo testCallLinkRepo 3 ≠
      list_fixing_dates_link_order 1 testCallRequirementRepo testCallLinkRepo 3 := by
  refine ⟨by decide, by decide, by decide, by decide⟩

/-- C6 amended: `list_fixing_dates` walks the Call Link Chain from the
root id following next_call_id until the chain closes, collects the dates
of the visited calls' fixing markers, and returns them sorted in
ascending date order (its result is always sorted); for the chain
1->2->3->1 with fixing markers 2011-01-01, 2012-02-02, 2013-03-03 at
calls 1, 2, 3 respectively it returns
[2011-01-01, 2012-02-02, 2013-03-03]. -/
theorem list_fixing_dates_sorted :
    list_fixing_dates 1 testCallRequirementRepo testCallLinkRepo 3 =
      [⟨2011, 1, 1⟩, ⟨2012, 2, 2⟩, ⟨2013, 3, 3⟩] ∧
    ∀ root reqRepo linkRepo fuel,
      List.Sorted (fun a b => dateKey a ≤ dateKey b)
        (list_fixing_dates root reqRepo linkRepo fuel) := by
  constructor
  · decide
  · intro root reqRepo linkRepo fuel
    exact List.sorted_insertionSort (fun a b => dateKey a ≤ dateKey b)
      (list_fixing_dates_link_order root reqRepo linkRepo fuel)

/-! ## Graph Generator (spec §4.1) -/

/-- The parsed expression tree of a contract specification, as far as the
graph generator walks it: numeric literals, variables, sums, products,
calls of user-defined functions, and references to already reified calls
(the rewriting target of reification). -/
inductive DslExpr where
  | num (n : Int)
  | var (s : String)
  | add (a b : DslExpr)
  | mul (a b : DslExpr)
  | call (f : String) (arg : DslExpr)
  | ref (id : Nat)
deriving DecidableEq

/-- Immediate evaluation of a pure, non-stochastic expression; `none` when
the expression defers to later information. -/
def evalPure : DslExpr → Option Int
  | DslExpr.num n => some n
  | DslExpr.add a b =>
    match evalPure a, evalPure b with
    | some x, some y => some (x + y)
    | _, _ => none
  | DslExpr.mul a b =>
    match evalPure a, evalPure b with
    | some x, some y => some (x * y)
    | _, _ => none
  | _ => none

/-- A node that can be evaluated immediately is evaluated in place (spec
§4.1); otherwise it is left as is. -/
def evalInPlace (e : DslExpr) : DslExpr :=
  match evalPure e with
  | some n => DslExpr.num n
  | none => e

/-- Substitution of a function's parameter by the (already reified)
argument inside the function body, building the reified call's local
binding context. -/
def subst (x : String) (v : DslExpr) : DslExpr → DslExpr
  | DslExpr.num n => DslExpr.num n
  | DslExpr.var s => if s = x then v else DslExpr.var s
  | DslExpr.add a b => DslExpr.add (subst x v a) (subst x v b)
  | DslExpr.mul a b => DslExpr.mul (subst x v a) (subst x v b)
  | DslExpr.call f a => DslExpr.call f (subst x v a)
  | DslExpr.ref i => DslExpr.ref i

/-- The result of one reification pass: the rewritten expression, the next
fresh id, the updated memoization table (reified source -> call id), the
full ordered list of child call ids the rewritten expression references
(memo hits included), and the newly minted (id, source) pairs. -/
structure ReifyResult where
  rewritten : DslExpr
  fresh : Nat
  memo : List (DslExpr × Nat)
  children : List Nat
  minted : List (Nat × DslExpr)

/-- Lookup of an already-reified source in the memoization table. -/
def lookupMemo : List (DslExpr × Nat) → DslExpr → Option Nat
  | [], _ => none
  | (k, v) :: rest, e => if k = e then some v else lookupMemo rest e

/-- Modelled from the spec: one depth-first reification pass over a call's
source (spec §4.1).  Function calls are the deferred units.  Memoization
requirement: a structurally identical deferred sub-expression (the same
function body under the same binding context, i.e. the same substituted
source) reifies to the same call id rather than a new one — this is what
produces diamond dependency shapes.  Only on a memo miss is a fresh id
minted, the un-evaluated source recorded and the memo extended; either way
the node is rewritten to a reference to the child id and that id is
appended to the parent's children.  An unresolved function name aborts
with `none` (unresolved-name error). -/
def reifyCalls (funcs : String → Option (String × DslExpr)) :
    DslExpr → Nat → List (DslExpr × Nat) → Option ReifyResult
  | DslExpr.num n, fresh, memo => some ⟨DslExpr.num n, fresh, memo, [], []⟩
  | DslExpr.var _, _, _ => none
  | DslExpr.ref i, fresh, memo => some ⟨DslExpr.ref i, fresh, memo, [], []⟩
  | DslExpr.add a b, fresh, memo =>
    match reifyCalls funcs a fresh memo with
    | none => none
    | some r1 =>
      match reifyCalls funcs b r1.fresh r1.memo with
      | none => none
      | some r2 =>
        some ⟨DslExpr.add r1.rewritten r2.rewritten, r2.fresh, r2.memo,
          r1.children ++ r2.children, r1.minted ++ r2.minted⟩
  | DslExpr.mul a b, fresh, memo =>
    match reifyCalls funcs a fresh memo with
    | none => none
    | some r1 =>
      match reifyCalls funcs b r1.fresh r1.memo with
      | none => none
      | some r2 =>
        some ⟨DslExpr.mul r1.rewritten r2.rewritten, r2.fresh, r2.memo,
          r1.children ++ r2.children, r1.minted ++ r2.minted⟩
  | DslExpr.call f arg, fresh, memo =>
    match reifyCalls funcs arg fresh memo with
    | none => none
    | some r1 =>
      match funcs f with
      | none => none
      | some pb =>
        match lookupMemo r1.memo (subst pb.1 (evalInPlace r1.rewritten) pb.2) with
        | some i =>
          some ⟨DslExpr.ref i, r1.fresh, r1.memo, r1.children ++ [i], r1.minted⟩
        | none =>
          some ⟨DslExpr.ref r1.fresh, r1.fresh + 1,
            (subst pb.1 (evalInPlace r1.rewritten) pb.2, r1.fresh) :: r1.memo,
            r1.children ++ [r1.fresh],
            r1.minted ++ [(r1.fresh, subst pb.1 (evalInPlace r1.rewritten) pb.2)]⟩

/-- The state of the two dependency relation stores: the write-once
CallDependencies records (`none` = not yet written) and the growing
CallDependents lists. -/
structure GraphState where
  dependencies : Nat → Option (List Nat)
  dependents : Nat → List Nat

/-- The empty stores, before generation begins. -/
def emptyGraphState : GraphState :=
  ⟨fun _ => none, fun _ => []⟩

/-- One generator write step (spec §4.1): record parent `p`'s full ordered
list of child ids as a single CallDependencies write, and append `p` to
each child's CallDependents (a read-modify-append: a shared child keeps
the dependents recorded by earlier parents). -/
def writeParent (g : GraphState) (p : Nat) (cs : List Nat) : GraphState :=
  ⟨fun x => if x = p then some cs else g.dependencies x,
   fun c => if c ∈ cs then g.dependents c ++ [p] else g.dependents c⟩

/-- Modelled from the spec: the driving loop of `generate_dependency_graph`
(`quantdsl.domain.services.dependency_graphs`, implementation absent from
the visible sources).  Pending calls are processed in discovery order:
each parent's source is reified against the shared memo table, its full
child id list (memo hits included) is written as its CallDependencies
together with the matching CallDependents appends, and only the newly
minted children become pending.  A language error aborts, leaving the
already-written prefix in place; `fuel` bounds the loop. -/
def genLoop (funcs : String → Option (String × DslExpr)) :
    Nat → List (Nat × DslExpr) → Nat → List (DslExpr × Nat) → GraphState →
      GraphState
  | 0, _, _, _, g => g
  | _ + 1, [], _, _, g => g
  | fuel + 1, (p, src) :: t, fresh, memo, g =>
    match reifyCalls funcs src fresh memo with
    | none => g
    | some r =>
      genLoop funcs fuel (t ++ r.minted) r.fresh r.memo
        (writeParent g p r.children)

/-- Modelled from the spec: `generate_dependency_graph(contract_specification,
call_dependencies_repo, call_dependents_repo)` — decompose the contract
specification, whose id is the root call id, writing the two dependency
relations; fresh call ids are minted above the root id, starting from an
empty memo table. -/
def generate_dependency_graph (funcs : String → Option (String × DslExpr))
    (rootId : Nat) (specSrc : DslExpr) (fuel : Nat) : GraphState :=
  genLoop funcs fuel [(rootId, specSrc)] (rootId + 1) [] emptyGraphState

/-- The sequence of store states the generator passes through, one entry
per performed write (head = the state before the first write). -/
def genStates (funcs : String → Option (String × DslExpr)) :
    Nat → List (Nat × DslExpr) → Nat → List (DslExpr × Nat) → GraphState →
      List GraphState
  | 0, _, _, _, g => [g]
  | _ + 1, [], _, _, g => [g]
  | fuel + 1, (p, src) :: t, fresh, memo, g =>
    match reifyCalls funcs src fresh memo with
    | none => [g]
    | some r =>
      g :: genStates funcs fuel (t ++ r.minted) r.fresh r.memo
        (writeParent g p r.children)

/-- The inverse-relation invariant (spec §3, invariant 2): a call c is in
p's stored CallDependencies exactly when p is in c's stored
CallDependents. -/
def InverseInv (g : GraphState) : Prop :=
  ∀ p c : Nat, c ∈ (g.dependencies p).getD [] ↔ p ∈ g.dependents c

/-- The functions used by `test_generate_dependency_graph_with_function_call`:
`def double(x): return x * 2`. -/
def doubleFuncs : String → Option (String × DslExpr) := fun f =>
  if f = "double" then some ("x", DslExpr.mul (DslExpr.var "x") (DslExpr.num 2))
  else none

/-- The contract specification body of
`test_generate_dependency_graph_with_function_call`: `double(1 + 1)`. -/
def doubleSpecSrc : DslExpr :=
  DslExpr.call "double" (DslExpr.add (DslExpr.num 1) (DslExpr.num 1))

/-- C9: decomposing `def double(x): return x * 2; double(1 + 1)` (root id
0) produces a root whose CallDependencies lists exactly one dependency id
(1); that dependency's CallDependencies is empty; and that dependency's
CallDependents contains exactly the root id. -/
theorem generate_dependency_graph_double :
    (generate_dependency_graph doubleFuncs 0 doubleSpecSrc 3).dependencies 0 =
        some [1] ∧
    (generate_dependency_graph doubleFuncs 0 doubleSpecSrc 3).dependencies 1 =
        some [] ∧
    (generate_dependency_graph doubleFuncs 0 doubleSpecSrc 3).dependents 1 = [0] := by
  refine ⟨by decide, by decide, by decide⟩

/-- Functions for a diamond-producing specification: f and g have distinct
bodies, each containing the same call h(x). -/
def sharedFuncs : String → Option (String × DslExpr) := fun f =>
  if f = "f" then
    some ("x", DslExpr.add (DslExpr.call "h" (DslExpr.var "x")) (DslExpr.num 1))
  else if f = "g" then
    some ("x", DslExpr.mul (DslExpr.call "h" (DslExpr.var "x")) (DslExpr.num 2))
  else if f = "h" then
    some ("x", DslExpr.mul (DslExpr.var "x") (DslExpr.num 3))
  else none

/-- A specification decomposing to a diamond: `f(1) + g(1)`. -/
def sharedSpecSrc : DslExpr :=
  DslExpr.add (DslExpr.call "f" (DslExpr.num 1)) (DslExpr.call "g" (DslExpr.num 1))

/-- Memoized reification produces shared children: in `f(1) + g(1)` the
structurally identical deferred sub-expression h(1) appearing in both
bodies reifies once, to call id 3; the two distinct parents 1 and 2 both
list it in their CallDependencies, and its CallDependents list grew to
[1, 2] across two writes from different parents. -/
theorem generate_dependency_graph_shared_child :
    (generate_dependency_graph sharedFuncs 0 sharedSpecSrc 5).dependencies 0 =
        some [1, 2] ∧
    (generate_dependency_graph sharedFuncs 0 sharedSpecSrc 5).dependencies 1 =
        some [3] ∧
    (generate_dependency_graph sharedFuncs 0 sharedSpecSrc 5).dependencies 2 =
        some [3] ∧
    (generate_dependency_graph sharedFuncs 0 sharedSpecSrc 5).dependents 3 =
        [1, 2] := by
  refine ⟨by decide, by decide, by decide, by decide⟩

theorem writeParent_inv (g : GraphState) (p : Nat) (cs : List Nat)
    (hInv : InverseInv g) (hfresh : g.dependencies p = none) :
    InverseInv (writeParent g p cs) := by
  intro x c
  have hpc := hInv p c
  rw [hfresh] at hpc
  simp only [Option.getD_none, List.not_mem_nil, false_iff] at hpc
  have hxc := hInv x c
  simp only [writeParent]
  by_cases hxp : x = p
  · subst hxp
    by_cases hc : c ∈ cs <;> simp [hc, hpc]
  · by_cases hc : c ∈ cs <;> simp [hxp, hc, hxc]

theorem reifyCalls_minted (funcs : String → Option (String × DslExpr)) :
    ∀ (e : DslExpr) (fresh : Nat) (memo : List (DslExpr × Nat)) (r : ReifyResult),
      reifyCalls funcs e fresh memo = some r →
      fresh ≤ r.fresh ∧
        (∀ q ∈ r.minted.map Prod.fst, fresh ≤ q ∧ q < r.fresh) ∧
        (r.minted.map Prod.fst).Nodup := by
  intro e
  induction e with
  | num n =>
    intro fresh memo r h
    simp only [reifyCalls, Option.some.injEq] at h
    subst h
    simp
  | var s =>
    intro fresh memo r h
    simp [reifyCalls] at h
  | ref i =>
    intro fresh memo r h
    simp only [reifyCalls, Option.some.injEq] at h
    subst h
    simp
  | add a b iha ihb =>
    intro fresh memo r h
    unfold reifyCalls at h
    rcases ha : reifyCalls funcs a fresh memo with _ | r1 <;> rw [ha] at h <;>
      dsimp only at h
    · exact Option.noConfusion h
    rcases hb : reifyCalls funcs b r1.fresh r1.memo with _ | r2 <;> rw [hb] at h <;>
      dsimp only at h
    · exact Option.noConfusion h
    simp only [Option.some.injEq] at h
    subst h
    obtain ⟨hle1, hbnd1, hnd1⟩ := iha fresh memo r1 ha
    obtain ⟨hle2, hbnd2, hnd2⟩ := ihb r1.fresh r1.memo r2 hb
    refine ⟨Nat.le_trans hle1 hle2, ?_, ?_⟩
    · intro q hq
      rw [List.map_append, List.mem_append] at hq
      rcases hq with hq | hq
      · obtain ⟨h1, h2⟩ := hbnd1 q hq
        exact ⟨h1, Nat.lt_of_lt_of_le h2 hle2⟩
      · obtain ⟨h1, h2⟩ := hbnd2 q hq
        exact ⟨Nat.le_trans hle1 h1, h2⟩
    · rw [List.map_append]
      refine List.Nodup.append hnd1 hnd2 ?_
      intro q hq1 hq2
      obtain ⟨-, h2⟩ := hbnd1 q hq1
      obtain ⟨h3, -⟩ := hbnd2 q hq2
      omega
  | mul a b iha ihb =>
    intro fresh memo r h
    unfold reifyCalls at h
    rcases ha : reifyCalls funcs a fresh memo with _ | r1 <;> rw [ha] at h <;>
      dsimp only at h
    · exact Option.noConfusion h
    rcases hb : reifyCalls funcs b r1.fresh r1.memo with _ | r2 <;> rw [hb] at h <;>
      dsimp only at h
    · exact Option.noConfusion h
    simp only [Option.some.injEq] at h
    subst h
    obtain ⟨hle1, hbnd1, hnd1⟩ := iha fresh memo r1 ha
    obtain ⟨hle2, hbnd2, hnd2⟩ := ihb r1.fresh r1.memo r2 hb
    refine ⟨Nat.le_trans hle1 hle2, ?_, ?_⟩
    · intro q hq
      rw [List.map_append, List.mem_append] at hq
      rcases hq with hq | hq
      · obtain ⟨h1, h2⟩ := hbnd1 q hq
        exact ⟨h1, Nat.lt_of_lt_of_le h2 hle2⟩
      · obtain ⟨h1, h2⟩ := hbnd2 q hq
        exact ⟨Nat.le_trans hle1 h1, h2⟩
    · rw [List.map_append]
      refine List.Nodup.append hnd1 hnd2 ?_
      intro q hq1 hq2
      obtain ⟨-, h2⟩ := hbnd1 q hq1
      obtain ⟨h3, -⟩ := hbnd2 q hq2
      omega
  | call f arg ih =>
    intro fresh memo r h
    unfold reifyCalls at h
    rcases ha : reifyCalls funcs arg fresh memo with _ | r1 <;> rw [ha] at h <;>
      dsimp only at h
    · exact Option.noConfusion h
    rcases hf : funcs f with _ | pb <;> rw [hf] at h <;> dsimp only at h
    · exact Option.noConfusion h
    obtain ⟨hle1, hbnd1, hnd1⟩ := ih fresh memo r1 ha
    rcases hm : lookupMemo r1.memo (subst pb.1 (evalInPlace r1.rewritten) pb.2)
        with _ | i <;> rw [hm] at h <;> dsimp only at h <;>
      simp only [Option.some.injEq] at h <;> subst h
    · dsimp only
      refine ⟨by omega, ?_, ?_⟩
      · intro q hq
        rw [List.map_append, List.mem_append] at hq
        rcases hq with hq | hq
        · obtain ⟨h1, h2⟩ := hbnd1 q hq
          exact ⟨h1, by omega⟩
        · simp at hq
          omega
      · rw [List.map_append]
        refine List.Nodup.append hnd1 (by simp) ?_
        intro q hq1 hq2
        simp at hq2
        obtain ⟨-, h2⟩ := hbnd1 q hq1
        omega
    · exact ⟨hle1, hbnd1, hnd1⟩

theorem genStates_inv (funcs : String → Option (String × DslExpr)) :
    ∀ (fuel : Nat) (pending : List (Nat × DslExpr)) (fresh : Nat)
      (memo : List (DslExpr × Nat)) (g : GraphState),
      InverseInv g →
      (∀ q ∈ pending.map Prod.fst, g.dependencies q = none) →
      (pending.map Prod.fst).Nodup →
      (∀ q ∈ pending.map Prod.fst, q < fresh) →
      (∀ q, fresh ≤ q → g.dependencies q = none) →
      ∀ s ∈ genStates funcs fuel pending fresh memo g, InverseInv s := by
  intro fuel
  induction fuel with
  | zero =>
    intro pending fresh memo g hInv _ _ _ _ s hs
    simp [genStates] at hs
    subst hs
    exact hInv
  | succ fuel ih =>
    intro pending fresh memo g hInv hpend hnd hlt hflush s hs
    obtain _ | ⟨⟨p, src⟩, t⟩ := pending
    · simp [genStates] at hs
      subst hs
      exact hInv
    · unfold genStates at hs
      rcases hr : reifyCalls funcs src fresh memo with _ | r <;>
        rw [hr] at hs <;> dsimp only at hs
      · simp at hs
        subst hs
        exact hInv
      · obtain ⟨hle, hbnd, hndm⟩ := reifyCalls_minted funcs src fresh memo r hr
        have hpdep : GraphState.dependencies g p = none := hpend p (by simp)
        have hplt : p < fresh := hlt p (by simp)
        have hnd2 := hnd
        rw [List.map_cons] at hnd2
        obtain ⟨hpt, hndt⟩ := List.nodup_cons.mp hnd2
        rcases List.mem_cons.mp hs with rfl | hs2
        · exact hInv
        · refine ih (t ++ r.minted) r.fresh r.memo (writeParent g p r.children)
            (writeParent_inv g p r.children hInv hpdep) ?_ ?_ ?_ ?_ s hs2
          · intro q hq
            rw [List.map_append, List.mem_append] at hq
            simp only [writeParent]
            rcases hq with hq | hq
            · have hqp : q ≠ p := by
                intro hcontr
                subst hcontr
                exact hpt hq
              simp only [if_neg hqp]
              exact hpend q (by simp [hq])
            · obtain ⟨h1, -⟩ := hbnd q hq
              have hqp : q ≠ p := by omega
              simp only [if_neg hqp]
              exact hflush q (by omega)
          · rw [List.map_append]
            refine List.Nodup.append ?_ hndm ?_
            · exact hndt
            · intro q hq1 hq2
              have := hlt q (by simp [hq1])
              obtain ⟨h1, -⟩ := hbnd q hq2
              omega
          · intro q hq
            rw [List.map_append, List.mem_append] at hq
            rcases hq with hq | hq
            · have := hlt q (by simp [hq])
              omega
            · exact (hbnd q hq).2
          · intro q hq
            simp only [writeParent]
            have hqp : q ≠ p := by omega
            simp only [if_neg hqp]
            exact hflush q (by omega)

theorem genLoop_mem_genStates (funcs : String → Option (String × DslExpr)) :
    ∀ (fuel : Nat) (pending : List (Nat × DslExpr)) (fresh : Nat)
      (memo : List (DslExpr × Nat)) (g : GraphState),
      genLoop funcs fuel pending fresh memo g ∈
        genStates funcs fuel pending fresh memo g := by
  intro fuel
  induction fuel with
  | zero => intro pending fresh memo g; simp [genLoop, genStates]
  | succ fuel ih =>
    intro pending fresh memo g
    obtain _ | ⟨⟨p, src⟩, t⟩ := pending
    · simp [genLoop, genStates]
    · unfold genLoop genStates
      rcases hr : reifyCalls funcs src fresh memo with _ | r <;> dsimp only
      · simp
      · exact List.mem_cons_of_mem g (ih (t ++ r.minted) r.fresh r.memo _)

/-- C3: along every run of `generate_dependency_graph` (memoized
reification included, so runs can append several distinct parents to a
shared child's dependents) the stored CallDependents relation is exactly
the inverse of the stored CallDependencies relation — the inverse
invariant holds at every intermediate store state the generator's writes
pass through (every entry of the write trace `genStates`), and in
particular for the produced graph. -/
theorem generate_dependency_graph_inverse
    (funcs : String → Option (String × DslExpr)) (rootId : Nat)
    (specSrc : DslExpr) (fuel n : Nat) :
    InverseInv ((genStates funcs fuel [(rootId, specSrc)] (rootId + 1) []
        emptyGraphState).getD n emptyGraphState) ∧
    InverseInv (generate_dependency_graph funcs rootId specSrc fuel) := by
  have hempty : InverseInv emptyGraphState := by
    intro p c
    simp [emptyGraphState]
  have base := genStates_inv funcs fuel [(rootId, specSrc)] (rootId + 1) []
    emptyGraphState hempty (fun q _ => rfl) (by simp)
    (by intro q hq; simp at hq; omega) (fun q _ => rfl)
  constructor
  · by_cases hn :
      n < (genStates funcs fuel [(rootId, specSrc)] (rootId + 1) []
        emptyGraphState).length
    · rw [List.getD_eq_getElem _ _ hn]
      exact base _ (List.getElem_mem hn)
    · rw [List.getD_eq_default _ _ (Nat.le_of_not_lt hn)]
      exact hempty
  · exact base _ (genLoop_mem_genStates funcs fuel [(rootId, specSrc)]
      (rootId + 1) [] emptyGraphState)
/-! ## Application singleton (`quantdsl/application/main.py`) -/

/-- Python `str.strip()`: drop whitespace from both ends (embedded over the
character list of the string). -/
def pyStrip (s : List Char) : List Char :=
  ((s.dropWhile Char.isWhitespace).reverse.dropWhile Char.isWhitespace).reverse

/-- Python `str.lower()` (ASCII, as the backend names in play are ASCII). -/
def pyLower (s : List Char) : List Char :=
  s.map Char.toLower

/-- Digit accumulation for `pyInt?`. -/
def pyNatAux : List Char → Nat → Option Nat
  | [], acc => some acc
  | c :: cs, acc =>
    if c.isDigit then pyNatAux cs (acc * 10 + (c.toNat - 48)) else none

/-- A non-empty all-digit run, or `none`. -/
def pyNat? : List Char → Option Nat
  | [] => none
  | cs => pyNatAux cs 0

/-- Python `int(s)` on an already stripped string: an optional sign
followed by at least one digit; anything else raises ValueError,
embedded as `none`. -/
def pyInt? : List Char → Option Int
  | '-' :: rest => (pyNat? rest).map fun n => -(n : Int)
  | '+' :: rest => (pyNat? rest).map fun n => (n : Int)
  | s => (pyNat? s).map fun n => (n : Int)

/-- Python `s.split(sep)` for a one-character separator. -/
def pySplit (sep : Char) : List Char → List (List Char)
  | [] => [[]]
  | c :: cs =>
    if c = sep then [] :: pySplit sep cs
    else
      match pySplit sep cs with
      | [] => [[c]]
      | g :: gs => (c :: g) :: gs

/-- A constructed application instance, as `get_quantdsl_app` builds one:
the SQLAlchemy application with its DB URI, or the Cassandra application
with hosts, keyspace, port, username and password. -/
inductive QuantDslApp where
  | withSQLAlchemy (db_uri : String)
  | withCassandra (hosts : List (List Char)) (default_keyspace : List Char)
      (port : Int) (username : Option (List Char)) (password : Option (List Char))
deriving DecidableEq

/-- The ValueError cases `get_quantdsl_app` can raise: the explicit raise
for an unsupported backend name, and the ValueError `int()` raises on a
non-integer QUANT_DSL_CASSANDRA_PORT value. -/
inductive MainValueError where
  | invalidBackend (backend : List Char)
  | invalidPortLiteral (s : List Char)
deriving DecidableEq

/-- Python `os.environ.get(key, default)` over the embedded environment. -/
def envGet (env : String → Option String) (key dflt : String) : String :=
  (env key).getD dflt

/-- The backend selector exactly as the source computes it:
`os.environ.get('QUANT_DSL_BACKEND', 'sqlalchemy').strip().lower()`. -/
def normalizedBackend (env : String → Option String) : List Char :=
  pyLower (pyStrip (envGet env "QUANT_DSL_BACKEND" "sqlalchemy").data)

/-- `os.environ.get('QUANT_DSL_CASSANDRA_PORT', '9042').strip()`. -/
def cassandraPortStr (env : String → Option String) : List Char :=
  pyStrip (envGet env "QUANT_DSL_CASSANDRA_PORT" "9042").data

/-- Python `s or None` on a stripped string: None exactly when empty. -/
def strOrNone (s : List Char) : Option (List Char) :=
  if s = [] then none else some s

/-- Embeds `get_quantdsl_app` from `quantdsl/application/main.py`.  The
module-level singleton `__instance__` is passed in and the updated
singleton returned explicitly; the process environment is an explicit
lookup; raising ValueError is embedded as `Except.error` (Python `int(s)`
raising ValueError on a non-integer literal is embedded via `pyInt?`
returning `none`).  Module imports are assumed to succeed, since import
failures are not ValueErrors. -/
def get_quantdsl_app (env : String → Option String) (inst : Option QuantDslApp) :
    Except MainValueError (QuantDslApp × Option QuantDslApp) :=
  match inst with
  | some a => Except.ok (a, some a)
  | none =>
    if normalizedBackend env = "sqlalchemy".data then
      Except.ok
        (QuantDslApp.withSQLAlchemy
          (envGet env "QUANT_DSL_DB_API" "sqlite:////tmp/quantdsl-tmp.db"),
         some (QuantDslApp.withSQLAlchemy
          (envGet env "QUANT_DSL_DB_API" "sqlite:////tmp/quantdsl-tmp.db")))
    else if normalizedBackend env = "cassandra".data then
      match pyInt? (cassandraPortStr env) with
      | none => Except.error (MainValueError.invalidPortLiteral (cassandraPortStr env))
      | some port =>
        Except.ok
          (QuantDslApp.withCassandra
            ((pySplit ',' (envGet env "QUANT_DSL_CASSANDRA_HOSTS" "localhost").data).map
              pyStrip)
            (pyStrip (envGet env "QUANT_DSL_CASSANDRA_KEYSPACE" "quantdsl").data)
            port
            (strOrNone (pyStrip (envGet env "QUANT_DSL_CASSANDRA_USERNAME" "").data))
            (strOrNone (pyStrip (envGet env "QUANT_DSL_CASSANDRA_PASSWORD" "").data)),
           some (QuantDslApp.withCassandra
            ((pySplit ',' (envGet env "QUANT_DSL_CASSANDRA_HOSTS" "localhost").data).map
              pyStrip)
            (pyStrip (envGet env "QUANT_DSL_CASSANDRA_KEYSPACE" "quantdsl").data)
            port
            (strOrNone (pyStrip (envGet env "QUANT_DSL_CASSANDRA_USERNAME" "").data))
            (strOrNone (pyStrip (envGet env "QUANT_DSL_CASSANDRA_PASSWORD" "").data))))
    else
      Except.error (MainValueError.invalidBackend (normalizedBackend env))

/-- The environment of the C10 counterexample: a valid backend name
(cassandra) together with a non-integer port value. -/
def badPortEnv : String → Option String := fun k =>
  if k = "QUANT_DSL_BACKEND" then some "cassandra"
  else if k = "QUANT_DSL_CASSANDRA_PORT" then some "abc"
  else none

/-- C10 counterexample: with QUANT_DSL_BACKEND set to the supported value
cassandra but QUANT_DSL_CASSANDRA_PORT set to a non-integer, and no cached
instance, `get_quantdsl_app` raises ValueError even though the stripped,
lowercased backend is exactly one of the two supported names — refuting
the claimed equivalence. -/
theorem get_quantdsl_app_valueerror_counterexample :
    normalizedBackend badPortEnv = "cassandra".data ∧
    get_quantdsl_app badPortEnv none =
      Except.error (MainValueError.invalidPortLiteral "abc".data) := by
  constructor
  · decide
  · rfl

/-- C10 amended: with no cached instance, `get_quantdsl_app` raises
ValueError exactly when the stripped, lowercased QUANT_DSL_BACKEND value
is neither sqlalchemy nor cassandra, or it is cassandra and the stripped
QUANT_DSL_CASSANDRA_PORT value is not an integer literal; once an
instance has been created, every call returns that identical cached
instance without reading the environment, and every successful fresh call
caches exactly the instance it returns. -/
theorem get_quantdsl_app_spec (env : String → Option String) :
    ((∃ e, get_quantdsl_app env none = Except.error e) ↔
      ((normalizedBackend env ≠ "sqlalchemy".data ∧
          normalizedBackend env ≠ "cassandra".data) ∨
        (normalizedBackend env = "cassandra".data ∧
          pyInt? (cassandraPortStr env) = none))) ∧
    (∀ (a : QuantDslApp) (env2 : String → Option String),
      get_quantdsl_app env2 (some a) = Except.ok (a, some a)) ∧
    (∀ a st, get_quantdsl_app env none = Except.ok (a, st) → st = some a) := by
  refine ⟨⟨?_, ?_⟩, fun a env2 => rfl, ?_⟩
  · rintro ⟨e, he⟩
    unfold get_quantdsl_app at he
    dsimp only at he
    by_cases h1 : normalizedBackend env = "sqlalchemy".data
    · rw [if_pos h1] at he
      exact absurd he (by simp)
    · rw [if_neg h1] at he
      by_cases h2 : normalizedBackend env = "cassandra".data
      · rw [if_pos h2] at he
        rcases hp : pyInt? (cassandraPortStr env) with _ | port <;>
          rw [hp] at he <;> dsimp only at he
        · exact Or.inr ⟨h2, rfl⟩
        · exact absurd he (by simp)
      · exact Or.inl ⟨h1, h2⟩
  · rintro (⟨h1, h2⟩ | ⟨h2, hp⟩)
    · exact ⟨MainValueError.invalidBackend (normalizedBackend env), by
        unfold get_quantdsl_app
        rw [if_neg h1, if_neg h2]⟩
    · have h1 : normalizedBackend env ≠ "sqlalchemy".data := by
        rw [h2]
        decide
      refine ⟨MainValueError.invalidPortLiteral (cassandraPortStr env), ?_⟩
      unfold get_quantdsl_app
      rw [if_neg h1, if_pos h2, hp]
  · intro a st he
    unfold get_quantdsl_app at he
    dsimp only at he
    by_cases h1 : normalizedBackend env = "sqlalchemy".data
    · rw [if_pos h1] at he
      simp only [Except.ok.injEq, Prod.mk.injEq] at he
      obtain ⟨hap, hst⟩ := he
      rw [← hst, hap]
    · rw [if_neg h1] at he
      by_cases h2 : normalizedBackend env = "cassandra".data
      · rw [if_pos h2] at he
        rcases hp : pyInt? (cassandraPortStr env) with _ | port <;>
          rw [hp] at he <;> dsimp only at he
        · exact absurd he (by simp)
        · simp only [Except.ok.injEq, Prod.mk.injEq] at he
          obtain ⟨hap, hst⟩ := he
          rw [← hst, hap]
      · rw [if_neg h2] at he
        exact absurd he (by simp)

/-- Witness for C10 amended at a concrete input: with an empty environment
(default backend sqlalchemy) the fresh call succeeds and caches exactly the
instance it returns. -/
theorem get_quantdsl_app_spec_witness :
    (some (QuantDslApp.withSQLAlchemy "sqlite:////tmp/quantdsl-tmp.db") :
        Option QuantDslApp) =
      some (QuantDslApp.withSQLAlchemy "sqlite:////tmp/quantdsl-tmp.db") :=
  (get_quantdsl_app_spec (fun _ => none)).2.2
    (QuantDslApp.withSQLAlchemy "sqlite:////tmp/quantdsl-tmp.db")
    (some (QuantDslApp.withSQLAlchemy "sqlite:////tmp/quantdsl-tmp.db")) rfl

/-! ## Scheduler correctness (C1) -/

theorem execOrderLoop_spec (V : List Nat) (deps depts : Nat → List Nat)
    (hdeptsV : ∀ v ∈ V, ∀ d ∈ depts v, d ∈ V)
    (hdeptsNd : ∀ v ∈ V, (depts v).Nodup)
    (hinv : ∀ p ∈ V, ∀ c ∈ V, (c ∈ deps p ↔ p ∈ depts c)) :
    ∀ (fuel : Nat) (queue enq seen : List Nat),
      enq = seen ++ queue →
      enq.Nodup →
      (∀ x ∈ enq, x ∈ V) →
      (∀ q ∈ queue, ∀ d ∈ deps q, d ∈ seen) →
      (∀ v ∈ V, (∀ d ∈ deps v, d ∈ seen) → v ∈ enq) →
      V.length < seen.length + fuel →
      (seen ++ execOrderLoop depts deps fuel queue enq seen).Nodup ∧
      (∀ v ∈ execOrderLoop depts deps fuel queue enq seen, v ∈ V) ∧
      (∀ v ∈ V,
        (∀ d ∈ deps v, d ∈ seen ++ execOrderLoop depts deps fuel queue enq seen) →
          v ∈ seen ++ execOrderLoop depts deps fuel queue enq seen) ∧
      (∀ (i : Nat) (hi : i < (execOrderLoop depts deps fuel queue enq seen).length),
        ∀ d ∈ deps ((execOrderLoop depts deps fuel queue enq seen).get ⟨i, hi⟩),
          d ∈ seen ++ (execOrderLoop depts deps fuel queue enq seen).take i) := by
  intro fuel
  induction fuel with
  | zero =>
    intro queue enq seen ha hb hc hd hf hfuel
    obtain _ | ⟨h, t⟩ := queue
    · rw [List.append_nil] at ha
      subst ha
      refine ⟨by simpa [execOrderLoop] using hb, by simp [execOrderLoop], ?_, ?_⟩
      · intro v hv hvdeps
        simp only [execOrderLoop, List.append_nil] at hvdeps ⊢
        exact hf v hv hvdeps
      · intro i hi
        simp [execOrderLoop] at hi
    · exfalso
      have hsub : enq ⊆ V := hc
      have hlen : enq.length ≤ V.length :=
        (List.subperm_of_subset hb hsub).length_le
      rw [ha] at hlen
      simp only [List.length_append, List.length_cons] at hlen
      omega
  | succ fuel ih =>
    intro queue enq seen ha hb hc hd hf hfuel
    obtain _ | ⟨h, t⟩ := queue
    · rw [List.append_nil] at ha
      subst ha
      refine ⟨by simpa [execOrderLoop] using hb, by simp [execOrderLoop], ?_, ?_⟩
      · intro v hv hvdeps
        simp only [execOrderLoop, List.append_nil] at hvdeps ⊢
        exact hf v hv hvdeps
      · intro i hi
        simp [execOrderLoop] at hi
    · have hhenq : h ∈ enq := by
        rw [ha]
        exact List.mem_append_right seen (List.mem_cons_self h t)
      have hhV : h ∈ V := hc h hhenq
      have hstep : execOrderLoop depts deps (fuel + 1) (h :: t) enq seen =
          h :: execOrderLoop depts deps fuel
            (t ++ (depts h).filter fun d =>
              decide (∀ x ∈ deps d, x ∈ seen ++ [h]) && decide (d ∉ enq))
            (enq ++ (depts h).filter fun d =>
              decide (∀ x ∈ deps d, x ∈ seen ++ [h]) && decide (d ∉ enq))
            (seen ++ [h]) := rfl
      set ready := (depts h).filter fun d =>
        decide (∀ x ∈ deps d, x ∈ seen ++ [h]) && decide (d ∉ enq) with hready
      have hreadyMem : ∀ x, x ∈ ready ↔
          x ∈ depts h ∧ (∀ y ∈ deps x, y ∈ seen ++ [h]) ∧ x ∉ enq := by
        intro x
        rw [hready, List.mem_filter, Bool.and_eq_true, decide_eq_true_eq,
          decide_eq_true_eq]
      have ha2 : enq ++ ready = (seen ++ [h]) ++ (t ++ ready) := by
        rw [ha]
        simp
      have hreadyNd : ready.Nodup := (hdeptsNd h hhV).filter _
      have hb2 : (enq ++ ready).Nodup := by
        refine List.Nodup.append hb hreadyNd ?_
        intro x hx1 hx2
        exact ((hreadyMem x).mp hx2).2.2 hx1
      have hc2 : ∀ x ∈ enq ++ ready, x ∈ V := by
        intro x hx
        rcases List.mem_append.mp hx with hx | hx
        · exact hc x hx
        · exact hdeptsV h hhV x ((hreadyMem x).mp hx).1
      have hd2 : ∀ q ∈ t ++ ready, ∀ d ∈ deps q, d ∈ seen ++ [h] := by
        intro q hq d hdq
        rcases List.mem_append.mp hq with hq | hq
        · exact List.mem_append_left [h] (hd q (List.mem_cons_of_mem h hq) d hdq)
        · exact ((hreadyMem q).mp hq).2.1 d hdq
      have hf2 : ∀ v ∈ V, (∀ d ∈ deps v, d ∈ seen ++ [h]) → v ∈ enq ++ ready := by
        intro v hv hvdeps
        by_cases hvseen : ∀ d ∈ deps v, d ∈ seen
        · exact List.mem_append_left ready (hf v hv hvseen)
        · push_neg at hvseen
          obtain ⟨d, hd1, hd2x⟩ := hvseen
          have hdh : d = h := by
            rcases List.mem_append.mp (hvdeps d hd1) with hds | hdh
            · exact absurd hds hd2x
            · simpa using hdh
          subst hdh
          have hvdepts : v ∈ depts d := (hinv v hv d hhV).mp hd1
          by_cases hvenq : v ∈ enq
          · exact List.mem_append_left ready hvenq
          · exact List.mem_append_right enq
              ((hreadyMem v).mpr ⟨hvdepts, hvdeps, hvenq⟩)
      have hfuel2 : V.length < (seen ++ [h]).length + fuel := by
        simp only [List.length_append, List.length_singleton]
        omega
      obtain ⟨ih1, ih2, ih3, ih4⟩ :=
        ih (t ++ ready) (enq ++ ready) (seen ++ [h]) ha2 hb2 hc2 hd2 hf2 hfuel2
      rw [hstep]
      set out2 := execOrderLoop depts deps fuel (t ++ ready) (enq ++ ready)
        (seen ++ [h]) with hout2
      have hsplit : seen ++ h :: out2 = (seen ++ [h]) ++ out2 := by simp
      refine ⟨?_, ?_, ?_, ?_⟩
      · rw [hsplit]
        exact ih1
      · intro v hv
        rcases List.mem_cons.mp hv with rfl | hv
        · exact hhV
        · exact ih2 v hv
      · intro v hv hvdeps
        rw [hsplit] at hvdeps ⊢
        exact ih3 v hv hvdeps
      · intro i hi d hdep
        match i, hi with
        | 0, hi =>
          have hds : d ∈ seen := hd h (List.mem_cons_self h t) d (by simpa using hdep)
          simpa using hds
        | Nat.succ j, hi =>
          have hj : j < out2.length := by
            simpa using hi
          have hget : (h :: out2).get ⟨j + 1, hi⟩ = out2.get ⟨j, hj⟩ := rfl
          rw [hget] at hdep
          have hmem := ih4 j hj d hdep
          simpa [List.take_succ_cons, List.append_assoc] using hmem

/-- A rank function witnessing acyclicity of the diamond graph: every edge
of the dependencies relation strictly decreases it. -/
def diamondRank : Nat → Nat := fun v =>
  if v = 1 then 2 else if v = 3 then 1 else 0

/-- C1: for every finite DAG given as a dependencies lookup and its
inverse dependents lookup (acyclicity witnessed by a rank function
strictly decreasing along dependency edges), with the leaf ids being
exactly the calls with zero dependencies, `generate_execution_order`
yields every call id of the graph exactly once — the output's members are
exactly the graph's ids and the output has no duplicates — and every id
appears strictly after every id in its dependency set. -/
theorem generate_execution_order_correct
    (V leafIds : List Nat) (deps depts : Nat → List Nat) (r : Nat → Nat)
    (fuel : Nat)
    (hVnd : V.Nodup)
    (hdepsV : ∀ v ∈ V, ∀ d ∈ deps v, d ∈ V)
    (hdeptsV : ∀ v ∈ V, ∀ d ∈ depts v, d ∈ V)
    (hdeptsNd : ∀ v ∈ V, (depts v).Nodup)
    (hinv : ∀ p ∈ V, ∀ c ∈ V, (c ∈ deps p ↔ p ∈ depts c))
    (hr : ∀ v ∈ V, ∀ d ∈ deps v, r d < r v)
    (hleaf : leafIds = V.filter fun v => decide (deps v = []))
    (hfuel : V.length < fuel) :
    (∀ v, v ∈ generate_execution_order leafIds depts deps fuel ↔ v ∈ V) ∧
    (generate_execution_order leafIds depts deps fuel).Nodup ∧
    (∀ (i : Nat)
      (hi : i < (generate_execution_order leafIds depts deps fuel).length),
      ∀ d ∈ deps ((generate_execution_order leafIds depts deps fuel).get ⟨i, hi⟩),
        d ∈ (generate_execution_order leafIds depts deps fuel).take i) := by
  subst hleaf
  have hinit1 : (V.filter fun v => decide (deps v = [])) =
      [] ++ V.filter fun v => decide (deps v = []) := by simp
  have hb0 : (V.filter fun v => decide (deps v = [])).Nodup := hVnd.filter _
  have hc0 : ∀ x ∈ V.filter fun v => decide (deps v = []), x ∈ V := by
    intro x hx
    exact (List.mem_filter.mp hx).1
  have hd0 : ∀ q ∈ V.filter fun v => decide (deps v = []),
      ∀ d ∈ deps q, d ∈ ([] : List Nat) := by
    intro q hq d hdq
    have hqnil : deps q = [] := by simpa using (List.mem_filter.mp hq).2
    rw [hqnil] at hdq
    exact absurd hdq (List.not_mem_nil d)
  have hf0 : ∀ v ∈ V, (∀ d ∈ deps v, d ∈ ([] : List Nat)) →
      v ∈ V.filter fun v => decide (deps v = []) := by
    intro v hv hvd
    refine List.mem_filter.mpr ⟨hv, ?_⟩
    have hvnil : deps v = [] :=
      List.eq_nil_iff_forall_not_mem.mpr fun d hdm => List.not_mem_nil d (hvd d hdm)
    simpa using hvnil
  have hfuel0 : V.length < ([] : List Nat).length + fuel := by simpa using hfuel
  obtain ⟨m1, m2, m3, m4⟩ := execOrderLoop_spec V deps depts hdeptsV hdeptsNd hinv
    fuel (V.filter fun v => decide (deps v = []))
    (V.filter fun v => decide (deps v = [])) [] hinit1 hb0 hc0 hd0 hf0 hfuel0
  have hgen :
      generate_execution_order (V.filter fun v => decide (deps v = []))
          depts deps fuel =
        execOrderLoop depts deps fuel (V.filter fun v => decide (deps v = []))
          (V.filter fun v => decide (deps v = [])) [] := rfl
  rw [hgen]
  simp only [List.nil_append] at m1 m3 m4
  have hcomplete : ∀ (n : Nat), ∀ v ∈ V, r v < n →
      v ∈ execOrderLoop depts deps fuel (V.filter fun v => decide (deps v = []))
        (V.filter fun v => decide (deps v = [])) [] := by
    intro n
    induction n with
    | zero =>
      intro v hv hrv
      exact absurd hrv (Nat.not_lt_zero _)
    | succ n ihn =>
      intro v hv hrv
      refine m3 v hv ?_
      intro d hdv
      refine ihn d (hdepsV v hv d hdv) ?_
      have := hr v hv d hdv
      omega
  refine ⟨?_, m1, m4⟩
  intro v
  constructor
  · exact m2 v
  · intro hv
    exact hcomplete (r v + 1) v hv (Nat.lt_succ_self _)

/-- Witness for C1 at the diamond graph of `test_generate_execution_order`
(ids [1,2,3], rank 2 > 3 > 2's): the produced order has no duplicates and
contains each of the three ids. -/
theorem generate_execution_order_correct_witness :
    (generate_execution_order [2] diamondDepts diamondDeps 4).Nodup ∧
    1 ∈ generate_execution_order [2] diamondDepts diamondDeps 4 ∧
    2 ∈ generate_execution_order [2] diamondDepts diamondDeps 4 ∧
    3 ∈ generate_execution_order [2] diamondDepts diamondDeps 4 := by
  have h := generate_execution_order_correct [1, 2, 3] [2] diamondDeps diamondDepts
    diamondRank 4 (by decide) (by decide) (by decide) (by decide) (by decide)
    (by decide) (by decide) (by decide)
  exact ⟨h.2.1, (h.1 1).mpr (by decide), (h.1 2).mpr (by decide),
    (h.1 3).mpr (by decide)⟩
